import Mathlib

/-!
Formal model of the `pgroup` package (`promise_group.go`): a goroutine
group with first-error-wins arbitration, cooperative cancellation and
promises.

The concurrent Go code is embedded as a state machine.  The shared mutable
state of a `Group` — the `sync.WaitGroup` counter, the error slot with its
`sync.Once` gate, and the derived cancellable context — becomes a record,
and every atomic effect a goroutine or the caller performs on that shared
state becomes an `Event`.  A concurrent execution is an arbitrary
interleaving, i.e. an arbitrary list of events, applied by a fold.  This
event-level atomicity is faithful to the Go program: `wg.Add`/`wg.Done`
are atomic, `errOnce.Do` runs its body (the error store and the `cancel()`
call) exactly once under the `sync.Once` gate, and a `Go` task's promise
write is a plain store sequenced before that task's deferred `wg.Done`.

`Micro` traces record the order of the individual statements inside one
task's completion path (the `run` closures in `Go` and `GoAndForget`), so
that intra-task ordering facts ("the promise is written before the
completion decrement") are stated on the code's own statement order.

`E` plays the role of Go's `error` interface: a task outcome is
`Option E`, where `none` is the nil error.  `V` is the result type `T` of
a `Go` task, and `z : V` stands for the zero value of `T` (the content of
the freshly allocated `&Promise[T]{}`).
-/

universe u v

namespace Pgroup

/-- Shared state of a `Group` (promise_group.go, struct at lines 13-21):
`pending` is the `sync.WaitGroup` counter `wg`; `err` and `errOnceDone`
are the error slot `err` together with the state of its `sync.Once` gate
`errOnce`; `cancelCalled` records whether the group's own `cancel`
function has been invoked; `parentDone` records whether the parent
context passed to `WithContext` has fired. -/
structure Group (E : Type u) where
  pending : Nat
  err : Option E
  errOnceDone : Bool
  cancelCalled : Bool
  parentDone : Bool
  deriving DecidableEq

/-- A `Promise` (promise_group.go lines 90-92) is a cell holding the
result slot `res` of one `Go` task. -/
structure Promise (V : Type v) where
  res : V
  deriving DecidableEq

/-- `Promise.Get` (promise_group.go lines 97-99) returns the stored
result with no synchronization of its own. -/
def Promise.Get {V : Type v} (p : Promise V) : V :=
  p.res

/-- `context.Background()` never fires on its own; as a parent-context
creation state it is "not fired". -/
def background : Bool :=
  false

/-- `WithContext` (promise_group.go lines 30-36): a fresh group derived
from a parent context whose fired-state at creation time is
`parentFired`; counter zero, empty error slot, gate unused, own cancel
not yet called. -/
def WithContext {E : Type u} (parentFired : Bool) : Group E :=
  { pending := 0, err := none, errOnceDone := false, cancelCalled := false,
    parentDone := parentFired }

/-- `New` (promise_group.go lines 24-26) is literally
`WithContext(context.Background())`. -/
def New {E : Type u} : Group E :=
  WithContext background

/-- The derived context `pg.ctx` obtained from `context.WithCancel(parent)`
is done exactly when the group's own `cancel` has been called or the
parent has fired. -/
def Group.ctxFired {E : Type u} (g : Group E) : Bool :=
  g.cancelCalled || g.parentDone

/-- `pg.errOnce.Do(func() { pg.err = err; pg.cancel() })` (promise_group.go
lines 59-62 and 80-83): if the one-shot gate has already run, nothing
happens; otherwise the error is stored, the group cancels itself, and the
gate is consumed — all in the same atomic step. -/
def Group.errOnceDo {E : Type u} (g : Group E) (e : E) : Group E :=
  if g.errOnceDone then g
  else { g with err := some e, errOnceDone := true, cancelCalled := true }

/-- `Wait` (promise_group.go lines 41-46): after `pg.wg.Wait()` unblocks
(modelled by the precondition `pending = 0` in the theorems), it calls
`pg.cancel()` and returns `pg.err`.  The returned pair is the group state
after the call together with the returned error. -/
def Group.Wait {E : Type u} (g : Group E) : Group E × Option E :=
  ({ g with cancelCalled := true }, g.err)

/-- A whole execution's shared state: the group plus the promises
allocated so far by `Go` calls, indexed by allocation order. -/
structure World (V : Type v) (E : Type u) where
  group : Group E
  promises : List (Promise V)
  deriving DecidableEq

/-- The world right after `WithContext(parent)`: no promises allocated. -/
def World.init {V : Type v} {E : Type u} (parentFired : Bool) : World V E :=
  ⟨WithContext parentFired, []⟩

/-- The world right after `New()`. -/
def World.new {V : Type v} {E : Type u} : World V E :=
  ⟨New, []⟩

/-- One atomic effect on the shared state.  `goLaunch` is the
`pg.wg.Add(1)` plus fresh `&Promise[T]{}` allocation of `Go` (lines
51-52); `goFinishOk pid v` is the completion of the `pid`-th `Go` task
with a nil error: `p.res = res` then the deferred `pg.wg.Done()` (lines
55, 65); `goFinishErr pid v e` is its completion with non-nil error `e`
(the computed result `v` is discarded): `errOnce.Do` then `wg.Done`
(lines 58-63).  `forgetLaunch` / `forgetFinishOk` / `forgetFinishErr`
are the same for `GoAndForget` (lines 73-87), which allocates no promise.
`parentCancel` is the parent context firing (a deadline or an external
cancel). -/
inductive Event (V : Type v) (E : Type u) where
  | goLaunch
  | goFinishOk (pid : Nat) (v : V)
  | goFinishErr (pid : Nat) (v : V) (e : E)
  | forgetLaunch
  | forgetFinishOk
  | forgetFinishErr (e : E)
  | parentCancel
  deriving DecidableEq

/-- Apply one atomic event to the world.  `z` is the zero value of `V`,
the content of a freshly allocated promise. -/
def applyEvent {V : Type v} {E : Type u} (z : V) (w : World V E) :
    Event V E → World V E
  | .goLaunch =>
      ⟨{ w.group with pending := w.group.pending + 1 }, w.promises ++ [⟨z⟩]⟩
  | .goFinishOk pid v =>
      ⟨{ w.group with pending := w.group.pending - 1 }, w.promises.set pid ⟨v⟩⟩
  | .goFinishErr _pid _v e =>
      ⟨{ w.group.errOnceDo e with pending := w.group.pending - 1 }, w.promises⟩
  | .forgetLaunch =>
      ⟨{ w.group with pending := w.group.pending + 1 }, w.promises⟩
  | .forgetFinishOk =>
      ⟨{ w.group with pending := w.group.pending - 1 }, w.promises⟩
  | .forgetFinishErr e =>
      ⟨{ w.group.errOnceDo e with pending := w.group.pending - 1 }, w.promises⟩
  | .parentCancel =>
      ⟨{ w.group with parentDone := true }, w.promises⟩

/-- Run an interleaving: fold the events over the world. -/
def run {V : Type v} {E : Type u} (z : V) (w : World V E)
    (evs : List (Event V E)) : World V E :=
  evs.foldl (applyEvent z) w

/-- The error a task returned in this event, if the event is a task
completing with a non-nil error. -/
def errOf {V : Type v} {E : Type u} : Event V E → Option E
  | .goFinishErr _ _ e => some e
  | .forgetFinishErr e => some e
  | _ => none

/-- Number of `Go` launches in a trace; each allocates one promise. -/
def goLaunchCount {V : Type v} {E : Type u} : List (Event V E) → Nat
  | [] => 0
  | .goLaunch :: evs => goLaunchCount evs + 1
  | _ :: evs => goLaunchCount evs

/-- Number of task launches (`wg.Add(1)` calls) in a trace. -/
def launchCount {V : Type v} {E : Type u} : List (Event V E) → Nat
  | [] => 0
  | .goLaunch :: evs => launchCount evs + 1
  | .forgetLaunch :: evs => launchCount evs + 1
  | _ :: evs => launchCount evs

/-- Number of task completions (`wg.Done()` calls) in a trace. -/
def finishCount {V : Type v} {E : Type u} : List (Event V E) → Nat
  | [] => 0
  | .goFinishOk _ _ :: evs => finishCount evs + 1
  | .goFinishErr _ _ _ :: evs => finishCount evs + 1
  | .forgetFinishOk :: evs => finishCount evs + 1
  | .forgetFinishErr _ :: evs => finishCount evs + 1
  | _ :: evs => finishCount evs

/-- A trace is balanced when no prefix completes more tasks than were
launched in it: a task can only finish after its `wg.Add(1)`. -/
def Balanced {V : Type v} {E : Type u} (evs : List (Event V E)) : Prop :=
  ∀ n, n ≤ evs.length →
    finishCount (evs.take n) ≤ launchCount (evs.take n)

instance {V : Type v} {E : Type u} (evs : List (Event V E)) :
    Decidable (Balanced evs) :=
  Nat.decidableBallLE _ _

/-- One statement inside a task's completion path: the promise store
`p.res = res`, the `errOnce.Do(...)` call, or the deferred `wg.Done()`. -/
inductive Micro (V : Type v) (E : Type u) where
  | setRes (v : V)
  | onceClaim (e : E)
  | wgDone
  deriving DecidableEq

/-- Statement order of the `run` closure of `Go` (promise_group.go lines
54-66) as a function of the task's outcome `(res, err)`: on non-nil
error, `errOnce.Do` then the deferred `wg.Done` — the promise is never
touched and `res` is dropped; on nil error, the promise store `p.res =
res` then the deferred `wg.Done`. -/
def goRunMicro {V : Type v} {E : Type u} (res : V) (err : Option E) :
    List (Micro V E) :=
  match err with
  | some e => [.onceClaim e, .wgDone]
  | none => [.setRes res, .wgDone]

/-- Statement order of the `run` closure of `GoAndForget`
(promise_group.go lines 76-85): on non-nil error, `errOnce.Do` then the
deferred `wg.Done`; on nil error, only the deferred `wg.Done`. -/
def goAndForgetRunMicro {V : Type v} {E : Type u} (err : Option E) :
    List (Micro V E) :=
  match err with
  | some e => [.onceClaim e, .wgDone]
  | none => [.wgDone]

/-! ### Basic facts about running a trace -/

theorem run_nil {V : Type v} {E : Type u} (z : V) (w : World V E) :
    run z w [] = w :=
  rfl

theorem run_cons {V : Type v} {E : Type u} (z : V) (w : World V E)
    (ev : Event V E) (evs : List (Event V E)) :
    run z w (ev :: evs) = run z (applyEvent z w ev) evs :=
  rfl

theorem run_append {V : Type v} {E : Type u} (z : V) (w : World V E)
    (evs evs' : List (Event V E)) :
    run z w (evs ++ evs') = run z (run z w evs) evs' :=
  List.foldl_append _ _ _ _

/-! ### The one-shot error gate -/

theorem errOnceDo_of_done {E : Type u} {g : Group E}
    (h : g.errOnceDone = true) (e : E) : g.errOnceDo e = g := by
  simp [Group.errOnceDo, h]

theorem errOnceDo_of_not_done {E : Type u} {g : Group E}
    (h : g.errOnceDone = false) (e : E) :
    g.errOnceDo e =
      { g with err := some e, errOnceDone := true, cancelCalled := true } := by
  simp [Group.errOnceDo, h]

theorem applyEvent_err_of_done {V : Type v} {E : Type u} {z : V}
    {w : World V E} {t : Event V E} (h : w.group.errOnceDone = true) :
    (applyEvent z w t).group.err = w.group.err ∧
      (applyEvent z w t).group.errOnceDone = true := by
  cases t <;> simp [applyEvent, Group.errOnceDo, h]

theorem run_err_of_done {V : Type v} {E : Type u} (z : V) :
    ∀ (evs : List (Event V E)) (w : World V E),
    w.group.errOnceDone = true →
    (run z w evs).group.err = w.group.err ∧
      (run z w evs).group.errOnceDone = true := by
  intro evs
  induction evs with
  | nil => intro w h; exact ⟨rfl, h⟩
  | cons ev evs ih =>
    intro w h
    have h1 := applyEvent_err_of_done (z := z) (t := ev) h
    rw [run_cons]
    have h2 := ih (applyEvent z w ev) h1.2
    exact ⟨h2.1.trans h1.1, h2.2⟩

theorem applyEvent_ok_frame {V : Type v} {E : Type u} {z : V}
    {w : World V E} {ev : Event V E} (h : errOf ev = none) :
    (applyEvent z w ev).group.err = w.group.err ∧
      (applyEvent z w ev).group.errOnceDone = w.group.errOnceDone := by
  cases ev <;> simp_all [applyEvent, errOf]

theorem run_err_eq_findSome {V : Type v} {E : Type u} (z : V) :
    ∀ (evs : List (Event V E)) (w : World V E),
    w.group.errOnceDone = false → w.group.err = none →
    (run z w evs).group.err = evs.findSome? errOf := by
  intro evs
  induction evs with
  | nil => intro w _ h2; simpa [run] using h2
  | cons ev evs ih =>
    intro w h1 h2
    rw [run_cons, List.findSome?_cons]
    cases hev : (errOf ev) with
    | none =>
      have hf := applyEvent_ok_frame (z := z) (w := w) hev
      exact ih (applyEvent z w ev) (hf.2.trans h1) (hf.1.trans h2)
    | some e =>
      have hgrp : (applyEvent z w ev).group.errOnceDone = true ∧
          (applyEvent z w ev).group.err = some e := by
        cases ev <;> simp_all [applyEvent, errOf, Group.errOnceDo]
      have hrest := run_err_of_done z evs _ hgrp.1
      rw [hrest.1, hgrp.2]

theorem applyEvent_once_cancel {V : Type v} {E : Type u} {z : V}
    {w : World V E} {ev : Event V E}
    (h : w.group.errOnceDone = true → w.group.cancelCalled = true) :
    (applyEvent z w ev).group.errOnceDone = true →
      (applyEvent z w ev).group.cancelCalled = true := by
  cases ev <;> simp [applyEvent, Group.errOnceDo] <;> (try split) <;> simp_all

theorem run_once_cancel {V : Type v} {E : Type u} (z : V) :
    ∀ (evs : List (Event V E)) (w : World V E),
    (w.group.errOnceDone = true → w.group.cancelCalled = true) →
    (run z w evs).group.errOnceDone = true →
      (run z w evs).group.cancelCalled = true := by
  intro evs
  induction evs with
  | nil => intro w h; exact h
  | cons ev evs ih =>
    intro w h
    rw [run_cons]
    exact ih (applyEvent z w ev) (applyEvent_once_cancel h)

theorem applyEvent_errInv {V : Type v} {E : Type u} {z : V}
    {w : World V E} {ev : Event V E}
    (h : w.group.err.isSome = w.group.errOnceDone) :
    (applyEvent z w ev).group.err.isSome =
      (applyEvent z w ev).group.errOnceDone := by
  cases ev <;> simp [applyEvent, Group.errOnceDo] <;> (try split) <;> simp_all

theorem run_errInv {V : Type v} {E : Type u} (z : V) :
    ∀ (evs : List (Event V E)) (w : World V E),
    w.group.err.isSome = w.group.errOnceDone →
    (run z w evs).group.err.isSome = (run z w evs).group.errOnceDone := by
  intro evs
  induction evs with
  | nil => intro w h; exact h
  | cons ev evs ih =>
    intro w h
    rw [run_cons]
    exact ih (applyEvent z w ev) (applyEvent_errInv h)

/-! ### The pending counter -/

theorem run_pending {V : Type v} {E : Type u} (z : V) :
    ∀ (evs : List (Event V E)) (w : World V E),
    (∀ n, finishCount (evs.take n) ≤ w.group.pending + launchCount (evs.take n)) →
    (run z w evs).group.pending =
      w.group.pending + launchCount evs - finishCount evs := by
  intro evs
  induction evs with
  | nil => intro w _; simp [run, launchCount, finishCount]
  | cons ev evs ih =>
    intro w h
    rw [run_cons]
    cases ev with
    | goLaunch =>
      have h' : ∀ n, finishCount (evs.take n) ≤
          (applyEvent z w .goLaunch).group.pending + launchCount (evs.take n) := by
        intro n
        have hn := h (n + 1)
        simp only [List.take_succ_cons, finishCount, launchCount, applyEvent] at hn ⊢
        omega
      have hrun := ih _ h'
      simp only [applyEvent, launchCount, finishCount] at hrun ⊢
      omega
    | forgetLaunch =>
      have h' : ∀ n, finishCount (evs.take n) ≤
          (applyEvent z w .forgetLaunch).group.pending + launchCount (evs.take n) := by
        intro n
        have hn := h (n + 1)
        simp only [List.take_succ_cons, finishCount, launchCount, applyEvent] at hn ⊢
        omega
      have hrun := ih _ h'
      simp only [applyEvent, launchCount, finishCount] at hrun ⊢
      omega
    | goFinishOk pid v =>
      have h1 : 1 ≤ w.group.pending := by
        have hn := h 1
        simp [finishCount, launchCount] at hn
        omega
      have h' : ∀ n, finishCount (evs.take n) ≤
          (applyEvent z w (.goFinishOk pid v)).group.pending + launchCount (evs.take n) := by
        intro n
        have hn := h (n + 1)
        simp only [List.take_succ_cons, finishCount, launchCount, applyEvent] at hn ⊢
        omega
      have hrun := ih _ h'
      simp only [applyEvent, launchCount, finishCount] at hrun ⊢
      omega
    | goFinishErr pid v e =>
      have h1 : 1 ≤ w.group.pending := by
        have hn := h 1
        simp [finishCount, launchCount] at hn
        omega
      have h' : ∀ n, finishCount (evs.take n) ≤
          (applyEvent z w (.goFinishErr pid v e)).group.pending + launchCount (evs.take n) := by
        intro n
        have hn := h (n + 1)
        simp only [List.take_succ_cons, finishCount, launchCount, applyEvent] at hn ⊢
        omega
      have hrun := ih _ h'
      simp only [applyEvent, launchCount, finishCount] at hrun ⊢
      omega
    | forgetFinishOk =>
      have h1 : 1 ≤ w.group.pending := by
        have hn := h 1
        simp [finishCount, launchCount] at hn
        omega
      have h' : ∀ n, finishCount (evs.take n) ≤
          (applyEvent z w .forgetFinishOk).group.pending + launchCount (evs.take n) := by
        intro n
        have hn := h (n + 1)
        simp only [List.take_succ_cons, finishCount, launchCount, applyEvent] at hn ⊢
        omega
      have hrun := ih _ h'
      simp only [applyEvent, launchCount, finishCount] at hrun ⊢
      omega
    | forgetFinishErr e =>
      have h1 : 1 ≤ w.group.pending := by
        have hn := h 1
        simp [finishCount, launchCount] at hn
        omega
      have h' : ∀ n, finishCount (evs.take n) ≤
          (applyEvent z w (.forgetFinishErr e)).group.pending + launchCount (evs.take n) := by
        intro n
        have hn := h (n + 1)
        simp only [List.take_succ_cons, finishCount, launchCount, applyEvent] at hn ⊢
        omega
      have hrun := ih _ h'
      simp only [applyEvent, launchCount, finishCount] at hrun ⊢
      omega
    | parentCancel =>
      have h' : ∀ n, finishCount (evs.take n) ≤
          (applyEvent z w .parentCancel).group.pending + launchCount (evs.take n) := by
        intro n
        have hn := h (n + 1)
        simp only [List.take_succ_cons, finishCount, launchCount, applyEvent] at hn ⊢
        omega
      have hrun := ih _ h'
      simp only [applyEvent, launchCount, finishCount] at hrun ⊢
      omega

theorem balanced_all {V : Type v} {E : Type u} {evs : List (Event V E)}
    (h : Balanced evs) (n : Nat) :
    finishCount (evs.take n) ≤ launchCount (evs.take n) := by
  by_cases hn : n ≤ evs.length
  · exact h n hn
  · have hle : evs.length ≤ n := Nat.le_of_lt (Nat.lt_of_not_le hn)
    rw [List.take_of_length_le hle]
    have hfull := h evs.length (Nat.le_refl _)
    simpa [List.take_length] using hfull

/-! ### Promise cells -/

theorem run_promises_length {V : Type v} {E : Type u} (z : V) :
    ∀ (evs : List (Event V E)) (w : World V E),
    (run z w evs).promises.length = w.promises.length + goLaunchCount evs := by
  intro evs
  induction evs with
  | nil => intro w; simp [run, goLaunchCount]
  | cons ev evs ih =>
    intro w
    rw [run_cons]
    cases ev <;> simp [applyEvent, goLaunchCount, ih] <;> omega

theorem run_promises_frame {V : Type v} {E : Type u} (z : V) (pid : Nat) :
    ∀ (evs : List (Event V E)) (w : World V E),
    pid < w.promises.length →
    (∀ v', Event.goFinishOk pid v' ∉ evs) →
    (run z w evs).promises[pid]? = w.promises[pid]? := by
  intro evs
  induction evs with
  | nil => intro w _ _; rfl
  | cons ev evs ih =>
    intro w hlen hno
    have hno' : ∀ v', Event.goFinishOk pid v' ∉ evs := fun v' hm =>
      hno v' (List.mem_cons_of_mem _ hm)
    rw [run_cons]
    cases ev with
    | goLaunch =>
      have hstep := ih (applyEvent z w .goLaunch)
        (by simp only [applyEvent, List.length_append]; omega) hno'
      rw [hstep]
      simp only [applyEvent]
      exact List.getElem?_append_left hlen
    | goFinishOk pid' v' =>
      have hne : pid' ≠ pid := by
        intro hc
        exact hno v' (by rw [hc]; exact List.mem_cons_self _ _)
      have hstep := ih (applyEvent z w (.goFinishOk pid' v'))
        (by simp only [applyEvent, List.length_set]; omega) hno'
      rw [hstep]
      simp only [applyEvent]
      exact List.getElem?_set_ne hne
    | goFinishErr pid' v' e =>
      have hstep := ih (applyEvent z w (.goFinishErr pid' v' e))
        (by simpa [applyEvent] using hlen) hno'
      simpa [applyEvent] using hstep
    | forgetLaunch =>
      have hstep := ih (applyEvent z w .forgetLaunch)
        (by simpa [applyEvent] using hlen) hno'
      simpa [applyEvent] using hstep
    | forgetFinishOk =>
      have hstep := ih (applyEvent z w .forgetFinishOk)
        (by simpa [applyEvent] using hlen) hno'
      simpa [applyEvent] using hstep
    | forgetFinishErr e =>
      have hstep := ih (applyEvent z w (.forgetFinishErr e))
        (by simpa [applyEvent] using hlen) hno'
      simpa [applyEvent] using hstep
    | parentCancel =>
      have hstep := ih (applyEvent z w .parentCancel)
        (by simpa [applyEvent] using hlen) hno'
      simpa [applyEvent] using hstep

theorem run_promises_default {V : Type v} {E : Type u} (z : V) (pid : Nat) :
    ∀ (evs : List (Event V E)) (w : World V E),
    (∀ v', Event.goFinishOk pid v' ∉ evs) →
    (w.promises[pid]? = some ⟨z⟩ ∨ w.promises.length ≤ pid) →
    pid < w.promises.length + goLaunchCount evs →
    (run z w evs).promises[pid]? = some ⟨z⟩ := by
  intro evs
  induction evs with
  | nil =>
    intro w _ hbranch hlt
    simp only [goLaunchCount, Nat.add_zero] at hlt
    rcases hbranch with h | h
    · exact h
    · omega
  | cons ev evs ih =>
    intro w hno hbranch hlt
    have hno' : ∀ v', Event.goFinishOk pid v' ∉ evs := fun v' hm =>
      hno v' (List.mem_cons_of_mem _ hm)
    rw [run_cons]
    cases ev with
    | goLaunch =>
      apply ih (applyEvent z w .goLaunch) hno'
      · rcases hbranch with h | h
        · left
          have hlen : pid < w.promises.length := by
            by_contra hc
            have hnone : w.promises[pid]? = none :=
              List.getElem?_eq_none (Nat.le_of_not_lt hc)
            rw [hnone] at h
            exact Option.noConfusion h
          simp only [applyEvent]
          rw [List.getElem?_append_left hlen]
          exact h
        · rcases Nat.lt_or_ge pid (w.promises.length + 1) with hlt2 | hge
          · have heq : pid = w.promises.length :=
              Nat.le_antisymm (Nat.lt_succ_iff.mp hlt2) h
            left
            simp only [applyEvent]
            rw [List.getElem?_append_right h, heq]
            simp
          · right
            simp only [applyEvent, List.length_append]
            simpa using hge
      · simp [applyEvent, goLaunchCount] at hlt ⊢
        omega
    | goFinishOk pid' v' =>
      have hne : pid' ≠ pid := by
        intro hc
        exact hno v' (by rw [hc]; exact List.mem_cons_self _ _)
      apply ih (applyEvent z w (.goFinishOk pid' v')) hno'
      · rcases hbranch with h | h
        · left
          simp only [applyEvent]
          rw [List.getElem?_set_ne hne]
          exact h
        · right
          simpa [applyEvent, List.length_set] using h
      · simp only [applyEvent, List.length_set, goLaunchCount] at hlt ⊢
        omega
    | goFinishErr pid' v' e =>
      apply ih (applyEvent z w (.goFinishErr pid' v' e)) hno'
      · simpa [applyEvent] using hbranch
      · simp only [applyEvent, goLaunchCount] at hlt ⊢
        omega
    | forgetLaunch =>
      apply ih (applyEvent z w .forgetLaunch) hno'
      · simpa [applyEvent] using hbranch
      · simp only [applyEvent, goLaunchCount] at hlt ⊢
        omega
    | forgetFinishOk =>
      apply ih (applyEvent z w .forgetFinishOk) hno'
      · simpa [applyEvent] using hbranch
      · simp only [applyEvent, goLaunchCount] at hlt ⊢
        omega
    | forgetFinishErr e =>
      apply ih (applyEvent z w (.forgetFinishErr e)) hno'
      · simpa [applyEvent] using hbranch
      · simp only [applyEvent, goLaunchCount] at hlt ⊢
        omega
    | parentCancel =>
      apply ih (applyEvent z w .parentCancel) hno'
      · simpa [applyEvent] using hbranch
      · simp only [applyEvent, goLaunchCount] at hlt ⊢
        omega

theorem run_parentDone {V : Type v} {E : Type u} (z : V) :
    ∀ (evs : List (Event V E)) (w : World V E),
    Event.parentCancel ∉ evs →
    (run z w evs).group.parentDone = w.group.parentDone := by
  intro evs
  induction evs with
  | nil => intro w _; rfl
  | cons ev evs ih =>
    intro w hno
    have hno' : Event.parentCancel ∉ evs := fun hm =>
      hno (List.mem_cons_of_mem _ hm)
    have hne : ev ≠ Event.parentCancel := fun hc =>
      hno (hc ▸ List.mem_cons_self _ _)
    rw [run_cons, ih _ hno']
    cases ev <;> simp [applyEvent, Group.errOnceDo] <;> (try split) <;> simp_all

/-! ### The claims -/

/-- C1: for every group, the stored error is written at most once: the
first failing task (in claim order) to pass the one-shot gate writes its
error and every later failing task's error is discarded, so once the
stored error is non-nil it is never overwritten or cleared (it survives
any further events `evs'`), and the error `Wait` returns is exactly one
single task's returned error, never a merge. -/
theorem err_written_at_most_once {V : Type v} {E : Type u} (z : V)
    (evs evs' : List (Event V E)) (e : E)
    (h : (run z World.new evs).group.err = some e) :
    (run z World.new (evs ++ evs')).group.err = some e ∧
      ((run z World.new (evs ++ evs')).group.Wait).2 = some e ∧
      evs.findSome? errOf = some e ∧
      ∃ ev ∈ evs, errOf ev = some e := by
  have hfind : evs.findSome? errOf = some e := by
    rw [← run_err_eq_findSome z evs World.new rfl rfl]
    exact h
  have hdone : (run z World.new evs).group.errOnceDone = true := by
    have hinv := run_errInv z evs World.new rfl
    rw [h] at hinv
    simpa using hinv.symm
  have hpers : (run z (World.new (V := V) (E := E)) (evs ++ evs')).group.err =
      some e := by
    rw [run_append, (run_err_of_done z evs' _ hdone).1]
    exact h
  exact ⟨hpers, hpers, hfind, List.exists_of_findSome?_eq_some hfind⟩

theorem err_written_at_most_once_witness :
    (run (0 : Nat) World.new
        (([Event.forgetLaunch, Event.forgetFinishErr 7] :
            List (Event Nat Nat)) ++
          [Event.forgetLaunch, Event.forgetFinishErr 9])).group.err =
      some 7 :=
  (err_written_at_most_once 0 [Event.forgetLaunch, Event.forgetFinishErr 7]
    [Event.forgetLaunch, Event.forgetFinishErr 9] 7 (by decide)).1

/-- C2: `Wait` returns nil exactly when no task ever claimed the error
slot, i.e. every launched task returned a nil error; and if some task
claimed the slot (the first error-returning completion in claim order
carries error `e`), `Wait` returns exactly that task's non-nil error. -/
theorem wait_nil_iff_no_claim {V : Type v} {E : Type u} (z : V)
    (evs : List (Event V E)) :
    (((run z World.new evs).group.Wait).2 = none ↔
        ∀ ev ∈ evs, errOf ev = none) ∧
      ∀ e, evs.findSome? errOf = some e →
        ((run z World.new evs).group.Wait).2 = some e := by
  have herr : (run z World.new evs).group.err = evs.findSome? errOf :=
    run_err_eq_findSome z evs World.new rfl rfl
  have hwait : ((run z World.new evs).group.Wait).2 =
      evs.findSome? errOf := herr
  constructor
  · rw [hwait]
    exact List.findSome?_eq_none_iff
  · intro e he
    rw [hwait]
    exact he

theorem wait_nil_iff_no_claim_witness :
    ((run (0 : Nat) World.new
        ([Event.forgetLaunch, Event.forgetFinishOk] :
          List (Event Nat Nat))).group.Wait).2 = none :=
  (wait_nil_iff_no_claim 0
    [Event.forgetLaunch, Event.forgetFinishOk]).1.mpr (by decide)

/-- C3: a task launched via `Go` that returns value `v` with a nil error
writes `v` into its freshly allocated promise before its completion
decrement of the pending count (in its completion path `goRunMicro` the
store `setRes v` comes strictly before `wgDone`), and after a `Wait`
call on the whole trace returned nil, `Get` on that future returns
exactly `v`.  The completion is the `pid`-th `Go` task's, whose promise
was allocated by an earlier `goLaunch`, and no other successful
completion writes that promise. -/
theorem go_result_delivery {V : Type v} {E : Type u} (z v : V) (pid : Nat)
    (evs1 evs2 : List (Event V E))
    (hpid : pid < goLaunchCount evs1)
    (honce : ∀ v', Event.goFinishOk pid v' ∉ evs2)
    (_hwait : ((run z World.new
        (evs1 ++ Event.goFinishOk pid v :: evs2)).group.Wait).2 = none) :
    goRunMicro v (none : Option E) = [Micro.setRes v, Micro.wgDone] ∧
      ((run z World.new
          (evs1 ++ Event.goFinishOk pid v :: evs2)).promises[pid]?).map
        Promise.Get = some v := by
  refine ⟨rfl, ?_⟩
  have hlen1 : pid < (run z (World.new (V := V) (E := E)) evs1).promises.length := by
    rw [run_promises_length z evs1 World.new]
    simpa [World.new] using hpid
  have hsplit : run z World.new (evs1 ++ Event.goFinishOk pid v :: evs2) =
      run z (applyEvent z (run z World.new evs1) (.goFinishOk pid v)) evs2 := by
    rw [run_append, run_cons]
  have hset : (applyEvent z (run z World.new evs1)
      (.goFinishOk pid v)).promises[pid]? = some ⟨v⟩ := by
    simp only [applyEvent]
    exact List.getElem?_set_eq_of_lt ⟨v⟩ hlen1
  have hframe : (run z (applyEvent z (run z World.new evs1)
      (.goFinishOk pid v)) evs2).promises[pid]? =
      (applyEvent z (run z World.new evs1)
        (.goFinishOk pid v)).promises[pid]? := by
    apply run_promises_frame z pid evs2
    · simp only [applyEvent, List.length_set]
      exact hlen1
    · exact honce
  rw [hsplit, hframe, hset]
  rfl

theorem go_result_delivery_witness :
    ((run (0 : Nat) World.new
        (([Event.goLaunch] : List (Event Nat Nat)) ++
          Event.goFinishOk 0 42 :: [])).promises[0]?).map
      Promise.Get = some 42 :=
  (go_result_delivery 0 42 0 [Event.goLaunch] []
    (by decide) (by intro v' hm; simp at hm) (by decide)).2

/-- C4: for every balanced trace, `Wait` blocks until the pending count
reaches zero for every task launched on the group — the count equals
launches minus completions, so a failing sibling only removes its own
completion, never other pending tasks — and then fires the group's own
cancellation signal and returns the stored error (or nil), regardless of
whether an error was stored. -/
theorem wait_joins_all_then_cancels {V : Type v} {E : Type u} (z : V)
    (evs : List (Event V E)) (hbal : Balanced evs) :
    (run z World.new evs).group.pending =
        launchCount evs - finishCount evs ∧
      ((run z World.new evs).group.Wait).1.cancelCalled = true ∧
      ((run z World.new evs).group.Wait).2 =
        (run z World.new evs).group.err := by
  refine ⟨?_, rfl, rfl⟩
  have hrun := run_pending z evs World.new (by
    intro n
    have hb := balanced_all hbal n
    simpa [World.new, New, WithContext] using hb)
  simpa [World.new, New, WithContext] using hrun

theorem wait_joins_all_then_cancels_witness :
    (run (0 : Nat) World.new
        ([Event.forgetLaunch, Event.forgetFinishOk] :
          List (Event Nat Nat))).group.pending =
      launchCount ([Event.forgetLaunch, Event.forgetFinishOk] :
          List (Event Nat Nat)) -
        finishCount ([Event.forgetLaunch, Event.forgetFinishOk] :
          List (Event Nat Nat)) :=
  (wait_joins_all_then_cancels 0
    [Event.forgetLaunch, Event.forgetFinishOk] (by decide)).1

/-- C5: a parent-supplied cancellation firing never by itself writes the
group's error slot: the `parentCancel` step fires the derived shared
signal but leaves the slot and its one-shot gate untouched, the stored
error always equals the first error returned by some task (first-error-
wins arbitration over task completions only), and if every task returned
nil despite parent cancellation, `Wait` returns nil. -/
theorem parent_cancel_no_error {V : Type v} {E : Type u} (z : V)
    (w : World V E) (parentFired : Bool) (evs : List (Event V E))
    (hok : ∀ ev ∈ evs, errOf ev = none) :
    (applyEvent z w .parentCancel).group.err = w.group.err ∧
      (applyEvent z w .parentCancel).group.errOnceDone =
        w.group.errOnceDone ∧
      (applyEvent z w .parentCancel).group.ctxFired = true ∧
      (run z (World.init parentFired) evs).group.err =
        evs.findSome? errOf ∧
      ((run z (World.init parentFired) evs).group.Wait).2 = none := by
  refine ⟨rfl, rfl, ?_, ?_, ?_⟩
  · simp [applyEvent, Group.ctxFired]
  · exact run_err_eq_findSome z evs _ rfl rfl
  · have herr := run_err_eq_findSome z evs (World.init (V := V) parentFired)
      rfl rfl
    have hnone : evs.findSome? errOf = none :=
      List.findSome?_eq_none_iff.mpr hok
    show (run z (World.init parentFired) evs).group.err = none
    rw [herr, hnone]

theorem parent_cancel_no_error_witness :
    ((run (0 : Nat) (World.init true)
        ([Event.parentCancel, Event.forgetLaunch, Event.forgetFinishOk] :
          List (Event Nat Nat))).group.Wait).2 = none :=
  (parent_cancel_no_error 0 World.new true
    [Event.parentCancel, Event.forgetLaunch, Event.forgetFinishOk]
    (by decide)).2.2.2.2

/-- C6: the error store and the group's cancellation trigger are guarded
by the same one-shot gate and occur together exactly once: a claim
through an unconsumed gate stores the error, fires the group's own
cancellation and consumes the gate in the same atomic step; a claim
through a consumed gate changes nothing; and in every reachable state
the slot is non-nil exactly when the gate was consumed, in which case
the group's cancellation has been fired. -/
theorem once_gate_couples_store_and_cancel {V : Type v} {E : Type u}
    (z : V) (g : Group E) (e : E) (evs : List (Event V E)) :
    (g.errOnceDone = false →
        g.errOnceDo e =
          { g with
              err := some e
              errOnceDone := true
              cancelCalled := true }) ∧
      (g.errOnceDone = true → g.errOnceDo e = g) ∧
      (run z World.new evs).group.err.isSome =
        (run z World.new evs).group.errOnceDone ∧
      ((run z World.new evs).group.errOnceDone = true →
        (run z World.new evs).group.cancelCalled = true) :=
  ⟨fun h => errOnceDo_of_not_done h e, fun h => errOnceDo_of_done h e,
    run_errInv z evs World.new rfl,
    run_once_cancel z evs World.new (fun h => Bool.noConfusion h)⟩

theorem once_gate_couples_store_and_cancel_witness :
    (New : Group Nat).errOnceDo 5 =
      { (New : Group Nat) with
          err := some 5
          errOnceDone := true
          cancelCalled := true } :=
  (once_gate_couples_store_and_cancel (0 : Nat) New 5 []).1 rfl

/-- C7: the value slot of a promise created by `Go` holds the zero value
of `T` until its bound task succeeds: a task completing with a non-nil
error never stores its (discarded) result — its completion path contains
no `setRes` — and after any trace in which the `pid`-th `Go` task never
completed successfully, `Get` on its promise still returns the zero
value `z`. -/
theorem promise_zero_until_success {V : Type v} {E : Type u} (z v : V)
    (e : E) (pid : Nat) (evs : List (Event V E))
    (hno : ∀ v', Event.goFinishOk pid v' ∉ evs)
    (hpid : pid < goLaunchCount evs) :
    goRunMicro v (some e) = [Micro.onceClaim e, Micro.wgDone] ∧
      ((run z World.new evs).promises[pid]?).map Promise.Get = some z := by
  refine ⟨rfl, ?_⟩
  have hdef := run_promises_default z pid evs World.new hno
    (Or.inr (by simp [World.new]))
    (by simpa [World.new] using hpid)
  rw [hdef]
  rfl

theorem promise_zero_until_success_witness :
    ((run (0 : Nat) World.new
        ([Event.goLaunch, Event.goFinishErr 0 99 5] :
          List (Event Nat Nat))).promises[0]?).map
      Promise.Get = some 0 :=
  (promise_zero_until_success 0 99 5 0
    [Event.goLaunch, Event.goFinishErr 0 99 5]
    (by intro v' hm; simp at hm) (by decide)).2

/-- C8: when a task launched via `GoAndForget` completes with a nil
error, nothing is recorded: its completion path is only the deferred
`wg.Done`, the only change to the shared state is the pending-count
decrement (error slot, one-shot gate, cancellation flags and every
promise are left unchanged), and the decrement equally happens when such
a task completes with a non-nil error. -/
theorem forget_success_only_decrements {V : Type v} {E : Type u} (z : V)
    (w : World V E) (e : E) :
    applyEvent z w .forgetFinishOk =
        ⟨{ w.group with pending := w.group.pending - 1 }, w.promises⟩ ∧
      goAndForgetRunMicro (V := V) (none : Option E) = [Micro.wgDone] ∧
      (applyEvent z w (.forgetFinishErr e)).group.pending =
        w.group.pending - 1 :=
  ⟨rfl, rfl, rfl⟩

/-- C9: `New` is `WithContext` applied to the always-alive background
signal: the constructed groups are equal, the parent is not fired at
creation, every event trace runs identically from the two
constructions, and as long as the (background) parent never fires — no
`parentCancel` event — the group's derived signal is fired exactly when
the group's own cancel was, i.e. it never fires on its own. -/
theorem new_is_withContext_background {V : Type v} {E : Type u} (z : V)
    (evs : List (Event V E)) :
    (New : Group E) = WithContext background ∧
      (New : Group E).parentDone = false ∧
      run z World.new evs = run z (World.init background) evs ∧
      (Event.parentCancel ∉ evs →
        (run z World.new evs).group.ctxFired =
          (run z World.new evs).group.cancelCalled) := by
  refine ⟨rfl, rfl, rfl, fun hno => ?_⟩
  have hpd : (run z (World.new (V := V) (E := E)) evs).group.parentDone =
      false := run_parentDone z evs World.new hno
  simp [Group.ctxFired, hpd]

theorem new_is_withContext_background_witness :
    (run (0 : Nat) World.new
        ([Event.forgetLaunch, Event.forgetFinishErr 3] :
          List (Event Nat Nat))).group.ctxFired =
      (run (0 : Nat) World.new
        ([Event.forgetLaunch, Event.forgetFinishErr 3] :
          List (Event Nat Nat))).group.cancelCalled :=
  (new_is_withContext_background 0
    [Event.forgetLaunch, Event.forgetFinishErr 3]).2.2.2 (by decide)

/-- C10: calling `Wait` a second time, sequentially after a first `Wait`
call returned and with no tasks launched in between, returns the same
error value and leaves the group state unchanged: the pending count is
still zero and firing the already-fired cancellation signal is
idempotent. -/
theorem wait_idempotent {E : Type u} (g : Group E) (h : g.pending = 0) :
    ((g.Wait).1.Wait).2 = (g.Wait).2 ∧
      ((g.Wait).1.Wait).1 = (g.Wait).1 ∧
      (g.Wait).1.pending = 0 :=
  ⟨rfl, rfl, h⟩

theorem wait_idempotent_witness :
    (((New : Group Nat).Wait).1.Wait).2 = ((New : Group Nat).Wait).2 :=
  (wait_idempotent New rfl).1

end Pgroup
